import Mathlib

/-!
Verification development for the Minesweeper agent of this repository
(CS50 AI, Project 1, minesweeper.py). The file gives a shallow embedding
of the `Sentence` constraint type and of the `MinesweeperAI` knowledge
base with its operations `mark_mine`, `mark_safe`, `add_knowledge`,
`make_safe_move`, `make_random_move` and `play`, and proves or refutes
the specification claims about them.

Modelling conventions:
- a board cell (a Python tuple of two ints, in practice non-negative) is a
  pair of naturals; Python sets of cells become `Finset Cell`; the Python
  list `self.knowledge` becomes `List Sentence`; Python int counts become `ℤ`.
- the loops `for cell in difference_cells: self.mark_safe(cell)` (and the
  mine variant) iterate over a Python set whose order is arbitrary; their
  net effect is order independent, so they are modelled by the simultaneous
  updates `mark_safe_all` / `mark_mine_all`.  The lemmas
  `foldl_mark_safe_eq_mark_safe_all` and `foldl_mark_mine_eq_mark_mine_all`
  below prove that iterating the single-cell operation over the cells of the
  set, in any order, equals the simultaneous update.
- `get_neighbors` calls `neighbors.remove(cell)` on a Python set, which
  raises `KeyError` when `cell` is not a member, i.e. exactly when `cell` is
  out of the board bounds.  `add_knowledge` therefore returns
  `Except AIState AIState`; an `Except.error` result carries the (already
  partially mutated) agent state at the point where the exception escapes.
- `random.choice` (in `make_random_move`) and the arbitrary iteration order
  of `self.safes` (in `make_safe_move`) select an unspecified element of a
  set; the embedding resolves the choice deterministically through the
  pairing function `Nat.pair`.  Every property proved or refuted about these
  functions holds for every possible choice, and each counterexample below
  uses a singleton candidate set, where no choice exists.
-/

/-- Board coordinate: a pair (row, col) of naturals. -/
abbrev Cell := ℕ × ℕ

/-- Logical statement about a Minesweeper game: a set of board cells and a
count of the number of those cells which are mines (class `Sentence` of
minesweeper.py). -/
@[ext] structure Sentence where
  cells : Finset Cell
  count : ℤ
deriving DecidableEq

namespace Sentence

/-- Method `Sentence.known_mines`: if `len(self.cells) == self.count`, return a
copy of the cells, else the empty set. -/
def known_mines (s : Sentence) : Finset Cell :=
  if (s.cells.card : ℤ) = s.count then s.cells else ∅

/-- Method `Sentence.known_safes`: if `self.count == 0`, return a copy of the
cells, else the empty set. -/
def known_safes (s : Sentence) : Finset Cell :=
  if s.count = 0 then s.cells else ∅

/-- Method `Sentence.mark_mine`: if the cell is present, remove it and
decrement the count; otherwise do nothing. -/
def mark_mine (s : Sentence) (c : Cell) : Sentence :=
  if c ∈ s.cells then ⟨s.cells.erase c, s.count - 1⟩ else s

/-- Method `Sentence.mark_safe`: if the cell is present, remove it; the count
is unchanged; otherwise do nothing. -/
def mark_safe (s : Sentence) (c : Cell) : Sentence :=
  if c ∈ s.cells then ⟨s.cells.erase c, s.count⟩ else s

@[simp] lemma mark_mine_cells (s : Sentence) (c : Cell) :
    (s.mark_mine c).cells = s.cells.erase c := by
  unfold mark_mine
  split
  · rfl
  · exact (Finset.erase_eq_of_not_mem (by assumption)).symm

@[simp] lemma mark_safe_cells (s : Sentence) (c : Cell) :
    (s.mark_safe c).cells = s.cells.erase c := by
  unfold mark_safe
  split
  · rfl
  · exact (Finset.erase_eq_of_not_mem (by assumption)).symm

@[simp] lemma mark_safe_count (s : Sentence) (c : Cell) :
    (s.mark_safe c).count = s.count := by
  unfold mark_safe
  split <;> rfl

end Sentence

/-- Agent state: the fields set up by `MinesweeperAI.__init__` (grid
dimensions, the cells already clicked, the cells known to be mines or safe,
the never-populated `accounted_mines` set, and the list of sentences). -/
@[ext] structure AIState where
  height : ℕ
  width : ℕ
  moves_made : Finset Cell
  mines : Finset Cell
  safes : Finset Cell
  accounted_mines : Finset Cell
  knowledge : List Sentence
deriving DecidableEq

namespace AIState

/-- Constructor `MinesweeperAI.__init__(height, width)`: all four cell sets
empty, knowledge list empty. -/
def init (h w : ℕ) : AIState :=
  ⟨h, w, ∅, ∅, ∅, ∅, []⟩

/-- Method `MinesweeperAI.mark_mine`: add the cell to the global mines set and
call `Sentence.mark_mine` on every sentence. -/
def mark_mine (st : AIState) (c : Cell) : AIState :=
  { st with
    mines := insert c st.mines
    knowledge := st.knowledge.map (fun s => s.mark_mine c) }

/-- Method `MinesweeperAI.mark_safe`: first remove the cell from `moves_made`
if present, then (the `hasattr` guards always hold after `__init__`) add it to
the global safes set and call `Sentence.mark_safe` on every sentence. -/
def mark_safe (st : AIState) (c : Cell) : AIState :=
  { st with
    moves_made := st.moves_made.erase c
    safes := insert c st.safes
    knowledge := st.knowledge.map (fun s => s.mark_safe c) }

/-- Net effect of running `self.mark_safe(cell)` once for every cell of `D`
(the loop `for cell in difference_cells: self.mark_safe(cell)` in
`add_knowledge`); proved equal to the iterated single-cell operation in
`foldl_mark_safe_eq_mark_safe_all` below. -/
def mark_safe_all (st : AIState) (D : Finset Cell) : AIState :=
  { st with
    moves_made := st.moves_made \ D
    safes := st.safes ∪ D
    knowledge := st.knowledge.map (fun s => ⟨s.cells \ D, s.count⟩) }

/-- Net effect of running `self.mark_mine(cell)` once for every cell of `D`
(the loop `for cell in difference_cells: self.mark_mine(cell)` in
`add_knowledge`); proved equal to the iterated single-cell operation in
`foldl_mark_mine_eq_mark_mine_all` below. -/
def mark_mine_all (st : AIState) (D : Finset Cell) : AIState :=
  { st with
    mines := st.mines ∪ D
    knowledge := st.knowledge.map
      (fun s => ⟨s.cells \ D, s.count - ((s.cells ∩ D).card : ℤ)⟩) }

/-- The product set built inside `MinesweeperAI.get_neighbors`:
`itertools.product(range(max(0, i-1), min(height, i+2)), range(max(0, j-1),
min(width, j+2)))`.  Natural subtraction matches `max(0, i-1)`. -/
def neighborProduct (st : AIState) (c : Cell) : Finset Cell :=
  Finset.Ico (c.1 - 1) (min st.height (c.1 + 2)) ×ˢ
    Finset.Ico (c.2 - 1) (min st.width (c.2 + 2))

/-- Method `MinesweeperAI.get_neighbors` on the path where
`neighbors.remove(cell)` succeeds, i.e. the cell is in bounds: the product set
with the cell itself removed. -/
def get_neighbors (st : AIState) (c : Cell) : Finset Cell :=
  (st.neighborProduct c).erase c

/-- A cell lies inside the board, `[0, height) × [0, width)`. -/
def inBounds (st : AIState) (c : Cell) : Prop :=
  c.1 < st.height ∧ c.2 < st.width

instance (st : AIState) (c : Cell) : Decidable (st.inBounds c) := by
  unfold inBounds
  infer_instance

/-- The count adjustment at the top of `add_knowledge`:
`for mine in self.mines: if mine in self.get_neighbors(cell) and mine not in
self.accounted_mines: count -= 1`. -/
def adjustedCount (st : AIState) (cell : Cell) (count : ℤ) : ℤ :=
  count - ((st.mines.filter
    (fun m => m ∈ st.get_neighbors cell ∧ m ∉ st.accounted_mines)).card : ℤ)

/-- One iteration of the inference loop at the bottom of `add_knowledge`,
comparing the freshly appended sentence `ns` (the Python variable
`new_sentence`, which is also the last list element and may itself have been
shrunk by earlier iterations) with the current version `s` of the sentence at
the loop position.  Faithful to the source, the superset branch tests
`new_sentence.count == 0` (not the count difference) for the safe case. -/
def inferPair (st : AIState) (ns s : Sentence) : AIState :=
  if ns.cells ⊆ s.cells then
    if s.count - ns.count = 0 then st.mark_safe_all (s.cells \ ns.cells)
    else if s.count - ns.count = ((s.cells \ ns.cells).card : ℤ) then
      st.mark_mine_all (s.cells \ ns.cells)
    else st
  else if s.cells ⊆ ns.cells then
    if ns.count = 0 then st.mark_safe_all (ns.cells \ s.cells)
    else if ns.count - s.count = ((ns.cells \ s.cells).card : ℤ) then
      st.mark_mine_all (ns.cells \ s.cells)
    else st
  else st

/-- The body of `for sentence in self.knowledge` at position `i`: read the
current version of the sentence at index `i` and of `new_sentence` (the last
element) and apply `inferPair`. -/
def inferStep (st : AIState) (i : ℕ) : AIState :=
  match st.knowledge.getLast?, st.knowledge[i]? with
  | some ns, some s => st.inferPair ns s
  | _, _ => st

/-- The whole inference loop `for sentence in self.knowledge: ...` of
`add_knowledge`.  The list object is iterated by position; marking never
changes its length, so the positions are `0, ..., length - 1` of the state at
loop entry. -/
def inferLoop (st : AIState) : AIState :=
  (List.range st.knowledge.length).foldl inferStep st

/-- The body of `add_knowledge(cell, count)` on the exception-free path, in
source order: mark the cell safe, adjust the count by the known mines among
the neighbors, record the move, build the new sentence from the neighbors
minus safes minus moves_made minus mines, append it, and run the inference
loop. -/
def add_knowledge_core (st : AIState) (cell : Cell) (count : ℤ) : AIState :=
  let st1 := st.mark_safe cell
  let count1 := st1.adjustedCount cell count
  let st2 := { st1 with moves_made := insert cell st1.moves_made }
  let newCells := ((st2.get_neighbors cell \ st2.safes) \ st2.moves_made)
      \ st2.mines
  let st3 := { st2 with
    knowledge := st2.knowledge ++ [(⟨newCells, count1⟩ : Sentence)] }
  st3.inferLoop

/-- Method `MinesweeperAI.add_knowledge`.  For an out-of-bounds cell the
`KeyError` from `get_neighbors` escapes: with at least one known mine it is
raised while testing `mine in self.get_neighbors(cell)`, so the state at the
raise point has only been changed by `self.mark_safe(cell)`; with no known
mines it is raised while computing `new_sentence_cells`, after
`self.moves_made.add(cell)` has also run.  `Except.error` returns the state at
the raise point. -/
def add_knowledge (st : AIState) (cell : Cell) (count : ℤ) :
    Except AIState AIState :=
  let st1 := st.mark_safe cell
  if st1.mines.Nonempty ∧ cell ∉ st1.neighborProduct cell then .error st1
  else if cell ∉ st1.neighborProduct cell then
    .error { st1 with moves_made := insert cell st1.moves_made }
  else .ok (st.add_knowledge_core cell count)

/-- Encoding of a cell as a natural number, used to resolve the arbitrary
choice of an element from a Python set deterministically. -/
def cellEnc (c : Cell) : ℕ := Nat.pair c.1 c.2

/-- Method `MinesweeperAI.make_safe_move`: build the list of cells of `safes`
not in `moves_made` and return its first element, or `None` when the list is
empty.  Which element comes first depends on the set iteration order; the
embedding picks the one with the least encoding. -/
def make_safe_move (st : AIState) : Option Cell :=
  if h : (st.safes \ st.moves_made).Nonempty then
    some (Nat.unpair (((st.safes \ st.moves_made).image cellEnc).min'
      (h.image cellEnc)))
  else none

/-- Method `MinesweeperAI.make_random_move`: all grid cells not already chosen
and not known to be mines; `random.choice` among them is modelled by the same
deterministic selection, `None` when no candidate exists. -/
def make_random_move (st : AIState) : Option Cell :=
  if h : ((Finset.range st.height ×ˢ Finset.range st.width).filter
      (fun c => c ∉ st.moves_made ∧ c ∉ st.mines)).Nonempty then
    some (Nat.unpair ((((Finset.range st.height ×ˢ Finset.range st.width).filter
      (fun c => c ∉ st.moves_made ∧ c ∉ st.mines)).image cellEnc).min'
      (h.image cellEnc)))
  else none

/-- Method `MinesweeperAI.play`: take the safe move if one exists (a cell
tuple is always truthy), adding it to `moves_made` and removing it from
`safes` (the `set.remove` cannot raise because the returned cell is a member
of `safes`); otherwise fall back to a random move, which is only added to
`moves_made`.  Returns the move made together with the updated state. -/
def play (st : AIState) : Option Cell × AIState :=
  match st.make_safe_move with
  | some c =>
      (some c, { st with moves_made := insert c st.moves_made
                         safes := st.safes.erase c })
  | none =>
      match st.make_random_move with
      | some c => (some c, { st with moves_made := insert c st.moves_made })
      | none => (none, st)

end AIState

/-- State a Python call leaves behind, whether it returns normally or raises:
the normal-return state for `Except.ok`, the state at the escaping exception
for `Except.error`. -/
def resState (e : Except AIState AIState) : AIState :=
  match e with
  | .ok st => st
  | .error st => st

deriving instance DecidableEq for Except

namespace AIState

@[simp] lemma mark_mine_height (st : AIState) (c : Cell) :
    (st.mark_mine c).height = st.height := rfl

@[simp] lemma mark_mine_width (st : AIState) (c : Cell) :
    (st.mark_mine c).width = st.width := rfl

@[simp] lemma mark_mine_moves_made (st : AIState) (c : Cell) :
    (st.mark_mine c).moves_made = st.moves_made := rfl

@[simp] lemma mark_mine_mines (st : AIState) (c : Cell) :
    (st.mark_mine c).mines = insert c st.mines := rfl

@[simp] lemma mark_mine_safes (st : AIState) (c : Cell) :
    (st.mark_mine c).safes = st.safes := rfl

@[simp] lemma mark_mine_accounted (st : AIState) (c : Cell) :
    (st.mark_mine c).accounted_mines = st.accounted_mines := rfl

@[simp] lemma mark_mine_knowledge (st : AIState) (c : Cell) :
    (st.mark_mine c).knowledge = st.knowledge.map (fun s => s.mark_mine c) := rfl

@[simp] lemma mark_safe_height (st : AIState) (c : Cell) :
    (st.mark_safe c).height = st.height := rfl

@[simp] lemma mark_safe_width (st : AIState) (c : Cell) :
    (st.mark_safe c).width = st.width := rfl

@[simp] lemma mark_safe_moves_made (st : AIState) (c : Cell) :
    (st.mark_safe c).moves_made = st.moves_made.erase c := rfl

@[simp] lemma mark_safe_mines (st : AIState) (c : Cell) :
    (st.mark_safe c).mines = st.mines := rfl

@[simp] lemma mark_safe_safes (st : AIState) (c : Cell) :
    (st.mark_safe c).safes = insert c st.safes := rfl

@[simp] lemma mark_safe_accounted (st : AIState) (c : Cell) :
    (st.mark_safe c).accounted_mines = st.accounted_mines := rfl

@[simp] lemma mark_safe_knowledge (st : AIState) (c : Cell) :
    (st.mark_safe c).knowledge = st.knowledge.map (fun s => s.mark_safe c) := rfl

@[simp] lemma mark_safe_all_height (st : AIState) (D : Finset Cell) :
    (st.mark_safe_all D).height = st.height := rfl

@[simp] lemma mark_safe_all_width (st : AIState) (D : Finset Cell) :
    (st.mark_safe_all D).width = st.width := rfl

@[simp] lemma mark_safe_all_moves_made (st : AIState) (D : Finset Cell) :
    (st.mark_safe_all D).moves_made = st.moves_made \ D := rfl

@[simp] lemma mark_safe_all_mines (st : AIState) (D : Finset Cell) :
    (st.mark_safe_all D).mines = st.mines := rfl

@[simp] lemma mark_safe_all_safes (st : AIState) (D : Finset Cell) :
    (st.mark_safe_all D).safes = st.safes ∪ D := rfl

@[simp] lemma mark_safe_all_accounted (st : AIState) (D : Finset Cell) :
    (st.mark_safe_all D).accounted_mines = st.accounted_mines := rfl

@[simp] lemma mark_safe_all_knowledge (st : AIState) (D : Finset Cell) :
    (st.mark_safe_all D).knowledge =
      st.knowledge.map (fun s => ⟨s.cells \ D, s.count⟩) := rfl

@[simp] lemma mark_mine_all_height (st : AIState) (D : Finset Cell) :
    (st.mark_mine_all D).height = st.height := rfl

@[simp] lemma mark_mine_all_width (st : AIState) (D : Finset Cell) :
    (st.mark_mine_all D).width = st.width := rfl

@[simp] lemma mark_mine_all_moves_made (st : AIState) (D : Finset Cell) :
    (st.mark_mine_all D).moves_made = st.moves_made := rfl

@[simp] lemma mark_mine_all_mines (st : AIState) (D : Finset Cell) :
    (st.mark_mine_all D).mines = st.mines ∪ D := rfl

@[simp] lemma mark_mine_all_safes (st : AIState) (D : Finset Cell) :
    (st.mark_mine_all D).safes = st.safes := rfl

@[simp] lemma mark_mine_all_accounted (st : AIState) (D : Finset Cell) :
    (st.mark_mine_all D).accounted_mines = st.accounted_mines := rfl

@[simp] lemma mark_mine_all_knowledge (st : AIState) (D : Finset Cell) :
    (st.mark_mine_all D).knowledge =
      st.knowledge.map
        (fun s => ⟨s.cells \ D, s.count - ((s.cells ∩ D).card : ℤ)⟩) := rfl

/-- Membership of a cell in its own neighbor product is exactly the in-bounds
condition: this is the condition under which the `neighbors.remove(cell)` call
of `get_neighbors` does not raise. -/
lemma mem_neighborProduct_self (st : AIState) (c : Cell) :
    c ∈ st.neighborProduct c ↔ st.inBounds c := by
  obtain ⟨i, j⟩ := c
  simp only [neighborProduct, inBounds, Finset.mem_product, Finset.mem_Ico]
  omega

end AIState

lemma erase_sdiff_eq (s T : Finset Cell) (a : Cell) :
    s.erase a \ T = s \ insert a T := by
  ext x
  simp only [Finset.mem_sdiff, Finset.mem_erase, Finset.mem_insert]
  tauto

lemma count_after_mark_mine (s : Sentence) (a : Cell) (T : Finset Cell)
    (ha : a ∉ T) :
    (s.mark_mine a).count - (((s.mark_mine a).cells ∩ T).card : ℤ) =
      s.count - ((s.cells ∩ insert a T).card : ℤ) := by
  by_cases hc : a ∈ s.cells
  · have h1 : (s.mark_mine a).cells ∩ T = s.cells ∩ T := by
      rw [Sentence.mark_mine_cells]
      ext x
      simp only [Finset.mem_inter, Finset.mem_erase]
      constructor
      · rintro ⟨⟨_, hx⟩, hT⟩; exact ⟨hx, hT⟩
      · rintro ⟨hx, hT⟩
        exact ⟨⟨fun he => ha (he ▸ hT), hx⟩, hT⟩
    have h2 : s.cells ∩ insert a T = insert a (s.cells ∩ T) := by
      ext x
      simp only [Finset.mem_inter, Finset.mem_insert]
      constructor
      · rintro ⟨hx, hxa | hT⟩
        · exact Or.inl hxa
        · exact Or.inr ⟨hx, hT⟩
      · rintro (rfl | ⟨hx, hT⟩)
        · exact ⟨hc, Or.inl rfl⟩
        · exact ⟨hx, Or.inr hT⟩
    have h3 : a ∉ s.cells ∩ T := fun h => ha (Finset.mem_inter.mp h).2
    have hcnt : (s.mark_mine a).count = s.count - 1 := by
      unfold Sentence.mark_mine
      rw [if_pos hc]
    rw [hcnt, h1, h2, Finset.card_insert_of_not_mem h3]
    push_cast
    ring
  · have h0 : s.mark_mine a = s := by
      unfold Sentence.mark_mine
      rw [if_neg hc]
    have h2 : s.cells ∩ insert a T = s.cells ∩ T := by
      ext x
      simp only [Finset.mem_inter, Finset.mem_insert]
      constructor
      · rintro ⟨hx, rfl | hT⟩
        · exact absurd hx hc
        · exact ⟨hx, hT⟩
      · rintro ⟨hx, hT⟩; exact ⟨hx, Or.inr hT⟩
    rw [h0, h2]

lemma Sentence.foldl_mark_safe (l : List Cell) :
    ∀ s : Sentence,
      l.foldl Sentence.mark_safe s = ⟨s.cells \ l.toFinset, s.count⟩ := by
  induction l with
  | nil => intro s; simp
  | cons a t ih =>
      intro s
      rw [List.foldl_cons, ih (s.mark_safe a)]
      refine Sentence.ext ?_ ?_
      · rw [Sentence.mark_safe_cells, List.toFinset_cons, erase_sdiff_eq]
      · simp

lemma Sentence.foldl_mark_mine (l : List Cell) :
    ∀ s : Sentence, l.Nodup →
      l.foldl Sentence.mark_mine s =
        ⟨s.cells \ l.toFinset, s.count - ((s.cells ∩ l.toFinset).card : ℤ)⟩ := by
  induction l with
  | nil => intro s _; simp
  | cons a t ih =>
      intro s hnd
      obtain ⟨ha, hnd'⟩ := List.nodup_cons.mp hnd
      rw [List.foldl_cons, ih (s.mark_mine a) hnd']
      refine Sentence.ext ?_ ?_
      · rw [Sentence.mark_mine_cells, List.toFinset_cons, erase_sdiff_eq]
      · rw [List.toFinset_cons]
        exact count_after_mark_mine s a t.toFinset (by simpa using ha)

namespace AIState

lemma mark_safe_then_all (st : AIState) (a : Cell) (T : Finset Cell) :
    (st.mark_safe a).mark_safe_all T = st.mark_safe_all (insert a T) := by
  refine AIState.ext rfl rfl ?_ rfl ?_ rfl ?_
  · rw [mark_safe_all_moves_made, mark_safe_moves_made,
      mark_safe_all_moves_made]
    exact erase_sdiff_eq st.moves_made T a
  · rw [mark_safe_all_safes, mark_safe_safes, mark_safe_all_safes]
    ext x
    simp only [Finset.mem_union, Finset.mem_insert]
    tauto
  · rw [mark_safe_all_knowledge, mark_safe_knowledge, mark_safe_all_knowledge,
      List.map_map]
    refine List.map_congr_left ?_
    intro s _
    refine Sentence.ext ?_ ?_
    · simp only [Function.comp_apply, Sentence.mark_safe_cells]
      exact erase_sdiff_eq s.cells T a
    · simp [Function.comp_apply]

lemma mark_mine_then_all (st : AIState) (a : Cell) (T : Finset Cell)
    (ha : a ∉ T) :
    (st.mark_mine a).mark_mine_all T = st.mark_mine_all (insert a T) := by
  refine AIState.ext rfl rfl rfl ?_ rfl rfl ?_
  · rw [mark_mine_all_mines, mark_mine_mines, mark_mine_all_mines]
    ext x
    simp only [Finset.mem_union, Finset.mem_insert]
    tauto
  · rw [mark_mine_all_knowledge, mark_mine_knowledge, mark_mine_all_knowledge,
      List.map_map]
    refine List.map_congr_left ?_
    intro s _
    refine Sentence.ext ?_ ?_
    · simp only [Function.comp_apply, Sentence.mark_mine_cells]
      exact erase_sdiff_eq s.cells T a
    · simp only [Function.comp_apply]
      exact count_after_mark_mine s a T ha

/-- Iterating `MinesweeperAI.mark_safe` over the cells of a set, in any
iteration order, is the simultaneous update `mark_safe_all`; this justifies
modelling the marking loops of `add_knowledge` by `mark_safe_all`. -/
lemma foldl_mark_safe_eq_mark_safe_all (l : List Cell) :
    ∀ st : AIState, l.foldl AIState.mark_safe st = st.mark_safe_all l.toFinset := by
  induction l with
  | nil =>
      intro st
      refine AIState.ext rfl rfl ?_ rfl ?_ rfl ?_ <;> simp
  | cons a t ih =>
      intro st
      rw [List.foldl_cons, ih (st.mark_safe a), mark_safe_then_all,
        List.toFinset_cons]

/-- Iterating `MinesweeperAI.mark_mine` over the distinct cells of a set, in
any iteration order, is the simultaneous update `mark_mine_all`; this
justifies modelling the marking loops of `add_knowledge` by
`mark_mine_all`. -/
lemma foldl_mark_mine_eq_mark_mine_all (l : List Cell) :
    ∀ st : AIState, l.Nodup →
      l.foldl AIState.mark_mine st = st.mark_mine_all l.toFinset := by
  induction l with
  | nil =>
      intro st _
      refine AIState.ext rfl rfl rfl ?_ rfl rfl ?_ <;> simp
  | cons a t ih =>
      intro st hnd
      obtain ⟨ha, hnd'⟩ := List.nodup_cons.mp hnd
      rw [List.foldl_cons, ih (st.mark_mine a) hnd',
        mark_mine_then_all st a t.toFinset (by simpa using ha),
        List.toFinset_cons]

end AIState

lemma inter_eq_empty_iff (s t : Finset Cell) :
    s ∩ t = ∅ ↔ ∀ x ∈ s, x ∉ t := by
  constructor
  · intro h x hx hxt
    have hmem : x ∈ s ∩ t := Finset.mem_inter.mpr ⟨hx, hxt⟩
    rw [h] at hmem
    exact absurd hmem (Finset.not_mem_empty x)
  · intro h
    ext x
    simp only [Finset.mem_inter, Finset.not_mem_empty, iff_false, not_and]
    exact h x

lemma inter_empty_of_subset {A B C : Finset Cell} (hAB : A ⊆ B)
    (h : B ∩ C = ∅) : A ∩ C = ∅ := by
  rw [inter_eq_empty_iff] at h ⊢
  exact fun x hx => h x (hAB hx)

namespace AIState

/-- Disjointness invariant of the spec: the global safes and mines sets are
disjoint, and the cells of every sentence of the knowledge list are disjoint
from both. -/
def Inv (st : AIState) : Prop :=
  st.safes ∩ st.mines = ∅ ∧
    ∀ s ∈ st.knowledge, s.cells ∩ st.safes = ∅ ∧ s.cells ∩ st.mines = ∅

instance (st : AIState) : Decidable st.Inv := by
  unfold Inv
  infer_instance

lemma inv_mark_safe {st : AIState} {c : Cell} (h : st.Inv)
    (hc : c ∉ st.mines) : (st.mark_safe c).Inv := by
  obtain ⟨h1, h2⟩ := h
  constructor
  · rw [mark_safe_safes, mark_safe_mines, inter_eq_empty_iff]
    intro x hx
    rcases Finset.mem_insert.mp hx with rfl | hx2
    · exact hc
    · exact (inter_eq_empty_iff _ _).mp h1 x hx2
  · intro s hs
    rw [mark_safe_knowledge] at hs
    obtain ⟨s0, hs0, rfl⟩ := List.mem_map.mp hs
    obtain ⟨ha, hb⟩ := h2 s0 hs0
    constructor
    · rw [Sentence.mark_safe_cells, mark_safe_safes, inter_eq_empty_iff]
      intro x hx hmem
      obtain ⟨hxc, hx0⟩ := Finset.mem_erase.mp hx
      rcases Finset.mem_insert.mp hmem with rfl | hx2
      · exact hxc rfl
      · exact (inter_eq_empty_iff _ _).mp ha x hx0 hx2
    · rw [Sentence.mark_safe_cells, mark_safe_mines]
      exact inter_empty_of_subset (Finset.erase_subset c s0.cells) hb

lemma inv_mark_mine {st : AIState} {c : Cell} (h : st.Inv)
    (hc : c ∉ st.safes) : (st.mark_mine c).Inv := by
  obtain ⟨h1, h2⟩ := h
  constructor
  · rw [mark_mine_safes, mark_mine_mines, inter_eq_empty_iff]
    intro x hx hmem
    rcases Finset.mem_insert.mp hmem with rfl | hx2
    · exact hc hx
    · exact (inter_eq_empty_iff _ _).mp h1 x hx hx2
  · intro s hs
    rw [mark_mine_knowledge] at hs
    obtain ⟨s0, hs0, rfl⟩ := List.mem_map.mp hs
    obtain ⟨ha, hb⟩ := h2 s0 hs0
    constructor
    · rw [Sentence.mark_mine_cells, mark_mine_safes]
      exact inter_empty_of_subset (Finset.erase_subset c s0.cells) ha
    · rw [Sentence.mark_mine_cells, mark_mine_mines, inter_eq_empty_iff]
      intro x hx hmem
      obtain ⟨hxc, hx0⟩ := Finset.mem_erase.mp hx
      rcases Finset.mem_insert.mp hmem with rfl | hx2
      · exact hxc rfl
      · exact (inter_eq_empty_iff _ _).mp hb x hx0 hx2

lemma inv_mark_safe_all {st : AIState} {D : Finset Cell} (h : st.Inv)
    (hD : D ∩ st.mines = ∅) : (st.mark_safe_all D).Inv := by
  obtain ⟨h1, h2⟩ := h
  constructor
  · rw [mark_safe_all_safes, mark_safe_all_mines, inter_eq_empty_iff]
    intro x hx
    rcases Finset.mem_union.mp hx with hx2 | hx2
    · exact (inter_eq_empty_iff _ _).mp h1 x hx2
    · exact (inter_eq_empty_iff _ _).mp hD x hx2
  · intro s hs
    rw [mark_safe_all_knowledge] at hs
    obtain ⟨s0, hs0, rfl⟩ := List.mem_map.mp hs
    obtain ⟨ha, hb⟩ := h2 s0 hs0
    constructor
    · rw [inter_eq_empty_iff]
      intro x hx hmem
      obtain ⟨hx0, hxD⟩ := Finset.mem_sdiff.mp hx
      rcases Finset.mem_union.mp hmem with hx2 | hx2
      · exact (inter_eq_empty_iff _ _).mp ha x hx0 hx2
      · exact hxD hx2
    · exact inter_empty_of_subset Finset.sdiff_subset hb

lemma inv_mark_mine_all {st : AIState} {D : Finset Cell} (h : st.Inv)
    (hD : D ∩ st.safes = ∅) : (st.mark_mine_all D).Inv := by
  obtain ⟨h1, h2⟩ := h
  constructor
  · rw [mark_mine_all_safes, mark_mine_all_mines, inter_eq_empty_iff]
    intro x hx hmem
    rcases Finset.mem_union.mp hmem with hx2 | hx2
    · exact (inter_eq_empty_iff _ _).mp h1 x hx hx2
    · exact (inter_eq_empty_iff _ _).mp hD x hx2 hx
  · intro s hs
    rw [mark_mine_all_knowledge] at hs
    obtain ⟨s0, hs0, rfl⟩ := List.mem_map.mp hs
    obtain ⟨ha, hb⟩ := h2 s0 hs0
    constructor
    · exact inter_empty_of_subset Finset.sdiff_subset ha
    · rw [inter_eq_empty_iff]
      intro x hx hmem
      obtain ⟨hx0, hxD⟩ := Finset.mem_sdiff.mp hx
      rcases Finset.mem_union.mp hmem with hx2 | hx2
      · exact (inter_eq_empty_iff _ _).mp hb x hx0 hx2
      · exact hxD hx2

lemma inv_inferPair {st : AIState} {ns s : Sentence} (h : st.Inv)
    (hns : ns ∈ st.knowledge) (hs : s ∈ st.knowledge) :
    (st.inferPair ns s).Inv := by
  obtain ⟨hsa, hsm⟩ := h.2 s hs
  obtain ⟨hna, hnm⟩ := h.2 ns hns
  unfold inferPair
  split_ifs
  · exact inv_mark_safe_all h (inter_empty_of_subset Finset.sdiff_subset hsm)
  · exact inv_mark_mine_all h (inter_empty_of_subset Finset.sdiff_subset hsa)
  · exact h
  · exact inv_mark_safe_all h (inter_empty_of_subset Finset.sdiff_subset hnm)
  · exact inv_mark_mine_all h (inter_empty_of_subset Finset.sdiff_subset hna)
  · exact h
  · exact h

lemma inv_inferStep {st : AIState} (h : st.Inv) (i : ℕ) :
    (st.inferStep i).Inv := by
  unfold inferStep
  cases hl : st.knowledge.getLast? with
  | none => exact h
  | some ns =>
    cases hg : st.knowledge[i]? with
    | none => exact h
    | some s =>
      exact inv_inferPair h (List.mem_of_mem_getLast? hl) (List.getElem?_mem hg)

lemma foldl_inferStep_pres (P : AIState → Prop)
    (hP : ∀ (st : AIState) (i : ℕ), P st → P (st.inferStep i)) :
    ∀ (l : List ℕ) (st : AIState), P st → P (l.foldl inferStep st) := by
  intro l
  induction l with
  | nil => intro st h; exact h
  | cons a t ih => intro st h; exact ih _ (hP st a h)

lemma inv_inferLoop {st : AIState} (h : st.Inv) : st.inferLoop.Inv :=
  foldl_inferStep_pres Inv (fun _ i h2 => inv_inferStep h2 i) _ st h

lemma inv_add_knowledge_core {st : AIState} {c : Cell} {n : ℤ} (h : st.Inv)
    (hc : c ∉ st.mines) : (st.add_knowledge_core c n).Inv := by
  apply inv_inferLoop
  obtain ⟨h1, h2⟩ := inv_mark_safe h hc
  constructor
  · exact h1
  · intro s hs
    rcases List.mem_append.mp hs with hs2 | hs2
    · exact h2 s hs2
    · rw [List.mem_singleton] at hs2
      subst hs2
      constructor
      · rw [inter_eq_empty_iff]
        intro x hx
        obtain ⟨hx1, -⟩ := Finset.mem_sdiff.mp (Finset.mem_sdiff.mp
          (Finset.mem_sdiff.mp hx).1).1
        exact (Finset.mem_sdiff.mp (Finset.mem_sdiff.mp
          (Finset.mem_sdiff.mp hx).1).1).2
      · rw [inter_eq_empty_iff]
        intro x hx
        exact (Finset.mem_sdiff.mp hx).2

end AIState

namespace AIState

/-- Unfolding of `add_knowledge_core` with the intermediate states written
out. -/
lemma add_knowledge_core_eq (st : AIState) (c : Cell) (n : ℤ) :
    st.add_knowledge_core c n = inferLoop
      { st.mark_safe c with
        moves_made := insert c (st.mark_safe c).moves_made
        knowledge := (st.mark_safe c).knowledge ++
          [(⟨(((st.mark_safe c).get_neighbors c \ (st.mark_safe c).safes)
                \ insert c (st.mark_safe c).moves_made)
              \ (st.mark_safe c).mines,
            (st.mark_safe c).adjustedCount c n⟩ : Sentence)] } := rfl

/-- Unfolding of `add_knowledge` into its three cases. -/
lemma add_knowledge_eq (st : AIState) (c : Cell) (n : ℤ) :
    st.add_knowledge c n =
      if (st.mark_safe c).mines.Nonempty ∧ c ∉ (st.mark_safe c).neighborProduct c
      then Except.error (st.mark_safe c)
      else if c ∉ (st.mark_safe c).neighborProduct c then
        Except.error
          { st.mark_safe c with
            moves_made := insert c (st.mark_safe c).moves_made }
      else Except.ok (st.add_knowledge_core c n) := rfl

lemma grow_inferPair (st : AIState) (ns s : Sentence) :
    st.safes ⊆ (st.inferPair ns s).safes ∧
      st.mines ⊆ (st.inferPair ns s).mines := by
  unfold inferPair
  split_ifs <;>
    exact ⟨by first | exact Finset.subset_union_left | exact subset_rfl,
      by first | exact Finset.subset_union_left | exact subset_rfl⟩

lemma grow_inferStep (st : AIState) (i : ℕ) :
    st.safes ⊆ (st.inferStep i).safes ∧ st.mines ⊆ (st.inferStep i).mines := by
  unfold inferStep
  cases hl : st.knowledge.getLast? with
  | none => exact ⟨subset_rfl, subset_rfl⟩
  | some ns =>
    cases hg : st.knowledge[i]? with
    | none => exact ⟨subset_rfl, subset_rfl⟩
    | some s => exact grow_inferPair st ns s

lemma grow_inferLoop (st : AIState) :
    st.safes ⊆ st.inferLoop.safes ∧ st.mines ⊆ st.inferLoop.mines := by
  refine foldl_inferStep_pres
    (fun t => st.safes ⊆ t.safes ∧ st.mines ⊆ t.mines) ?_ _ st
    ⟨subset_rfl, subset_rfl⟩
  intro t i ⟨ha, hb⟩
  obtain ⟨hc, hd⟩ := grow_inferStep t i
  exact ⟨ha.trans hc, hb.trans hd⟩

lemma grow_add_knowledge_core (st : AIState) (c : Cell) (n : ℤ) :
    st.safes ⊆ (st.add_knowledge_core c n).safes ∧
      st.mines ⊆ (st.add_knowledge_core c n).mines := by
  unfold add_knowledge_core
  obtain ⟨ha, hb⟩ := grow_inferLoop
    { st.mark_safe c with
      moves_made := insert c (st.mark_safe c).moves_made
      knowledge := ((st.mark_safe c).knowledge ++
        [⟨(((st.mark_safe c).get_neighbors c \ insert c st.safes)
            \ insert c (st.moves_made.erase c)) \ st.mines,
          (st.mark_safe c).adjustedCount c n⟩]) }
  constructor
  · exact (Finset.subset_insert c st.safes).trans ha
  · exact hb

/-- No operation ever writes to `accounted_mines`; each one leaves the field
exactly as it was. -/
lemma accounted_inferStep (st : AIState) (i : ℕ) :
    (st.inferStep i).accounted_mines = st.accounted_mines := by
  unfold inferStep
  cases hl : st.knowledge.getLast? with
  | none => rfl
  | some ns =>
    cases hg : st.knowledge[i]? with
    | none => rfl
    | some s =>
      show (st.inferPair ns s).accounted_mines = st.accounted_mines
      unfold inferPair
      split_ifs <;> rfl

lemma accounted_inferLoop (st : AIState) :
    st.inferLoop.accounted_mines = st.accounted_mines := by
  refine foldl_inferStep_pres
    (fun t => t.accounted_mines = st.accounted_mines) ?_ _ st rfl
  intro t i h
  rw [accounted_inferStep, h]

lemma accounted_add_knowledge (st : AIState) (c : Cell) (n : ℤ) :
    (resState (st.add_knowledge c n)).accounted_mines = st.accounted_mines := by
  rw [add_knowledge_eq]
  split_ifs
  all_goals
    first
      | rfl
      | (show (st.add_knowledge_core c n).accounted_mines = st.accounted_mines
         rw [add_knowledge_core_eq, accounted_inferLoop]
         rfl)

lemma accounted_play (st : AIState) :
    (st.play).2.accounted_mines = st.accounted_mines := by
  unfold play
  cases st.make_safe_move with
  | some c => rfl
  | none =>
    cases st.make_random_move with
    | some c => rfl
    | none => rfl

end AIState

/-- States reachable from a fresh `MinesweeperAI` through its public
operations. -/
inductive Reachable : AIState → Prop
  | start (h w : ℕ) : Reachable (AIState.init h w)
  | mark_mine {st : AIState} (c : Cell) :
      Reachable st → Reachable (st.mark_mine c)
  | mark_safe {st : AIState} (c : Cell) :
      Reachable st → Reachable (st.mark_safe c)
  | add_knowledge {st : AIState} (c : Cell) (n : ℤ) :
      Reachable st → Reachable (resState (st.add_knowledge c n))
  | play {st : AIState} : Reachable st → Reachable (st.play).2

/-- The `accounted_mines` set is empty in every reachable state: nothing ever
populates it. -/
lemma reachable_accounted_empty {st : AIState} (h : Reachable st) :
    st.accounted_mines = ∅ := by
  induction h with
  | start h w => rfl
  | mark_mine c _ ih => rw [AIState.mark_mine_accounted, ih]
  | mark_safe c _ ih => rw [AIState.mark_safe_accounted, ih]
  | add_knowledge c n _ ih => rw [AIState.accounted_add_knowledge, ih]
  | play _ ih => rw [AIState.accounted_play, ih]

/-- States reachable from a fresh agent through `add_knowledge` calls alone,
on in-bounds cells, where no call probes a cell already known to be a mine
(the precondition of the environment contract). -/
inductive AKReach : AIState → Prop
  | start (h w : ℕ) : AKReach (AIState.init h w)
  | step {st st2 : AIState} (c : Cell) (n : ℤ) :
      AKReach st → st.inBounds c → c ∉ st.mines →
      st.add_knowledge c n = .ok st2 → AKReach st2

namespace AIState

lemma inv_add_knowledge_ok {st st2 : AIState} {c : Cell} {n : ℤ} (h : st.Inv)
    (hc : c ∉ st.mines) (hok : st.add_knowledge c n = .ok st2) : st2.Inv := by
  rw [add_knowledge_eq] at hok
  split_ifs at hok
  all_goals cases hok
  all_goals exact inv_add_knowledge_core h hc

lemma grow_add_knowledge_ok {st st2 : AIState} {c : Cell} {n : ℤ}
    (hok : st.add_knowledge c n = .ok st2) :
    st.safes ⊆ st2.safes ∧ st.mines ⊆ st2.mines := by
  rw [add_knowledge_eq] at hok
  split_ifs at hok
  all_goals cases hok
  all_goals exact grow_add_knowledge_core st c n

lemma inv_init (h w : ℕ) : (init h w).Inv :=
  ⟨by simp [init], fun s hs => absurd hs (List.not_mem_nil s)⟩

lemma make_safe_move_none_iff (st : AIState) :
    st.make_safe_move = none ↔ st.safes \ st.moves_made = ∅ := by
  unfold make_safe_move
  split_ifs with h
  · simp [Finset.nonempty_iff_ne_empty.mp h]
  · simp [Finset.not_nonempty_iff_eq_empty.mp h]

lemma make_safe_move_some_mem {st : AIState} {c : Cell}
    (h : st.make_safe_move = some c) : c ∈ st.safes \ st.moves_made := by
  unfold make_safe_move at h
  split_ifs at h with hne
  · have hc : Nat.unpair (((st.safes \ st.moves_made).image cellEnc).min'
        (hne.image cellEnc)) = c := by injection h
    subst hc
    have hmem := Finset.min'_mem ((st.safes \ st.moves_made).image cellEnc)
      (hne.image cellEnc)
    obtain ⟨a, ha, hEnc⟩ := Finset.mem_image.mp hmem
    rw [← hEnc]
    unfold cellEnc
    rw [Nat.unpair_pair]
    exact ha

lemma add_knowledge_oob {st : AIState} {c : Cell} (h : ¬ st.inBounds c)
    (n : ℤ) :
    ∃ st2, st.add_knowledge c n = .error st2 ∧ c ∈ st2.safes := by
  have hp : c ∉ (st.mark_safe c).neighborProduct c := by
    rw [mem_neighborProduct_self]
    exact h
  rw [add_knowledge_eq]
  by_cases hne : (st.mark_safe c).mines.Nonempty
  · rw [if_pos ⟨hne, hp⟩]
    exact ⟨_, rfl, Finset.mem_insert_self c st.safes⟩
  · rw [if_neg (fun hand => hne hand.1), if_pos hp]
    exact ⟨_, rfl, Finset.mem_insert_self c st.safes⟩

lemma adjustedCount_of_accounted_empty {st : AIState}
    (h : st.accounted_mines = ∅) (c : Cell) (n : ℤ) :
    st.adjustedCount c n = n - ((st.mines ∩ st.get_neighbors c).card : ℤ) := by
  unfold adjustedCount
  rw [h]
  have hfil : st.mines.filter
      (fun m => m ∈ st.get_neighbors c ∧ m ∉ (∅ : Finset Cell)) =
        st.mines ∩ st.get_neighbors c := by
    ext x
    simp only [Finset.mem_filter, Finset.mem_inter, Finset.not_mem_empty,
      not_false_iff, and_true]
  rw [hfil]

end AIState

lemma akReach_inv {st : AIState} (h : AKReach st) : st.Inv := by
  induction h with
  | start h w => exact AIState.inv_init h w
  | step c n ha hb hm hok ih => exact AIState.inv_add_knowledge_ok ih hm hok

/-- Agent state after the single reveal of the 1 by 2 soundness scenario:
fresh agent on a 1 by 2 board, `add_knowledge((0,0), 1)`. -/
def oneByTwoState : AIState :=
  resState ((AIState.init 1 2).add_knowledge (0,0) 1)

/-- Agent state after the reveal sequence of the subset-inference scenario on
a 2 by 3 board: `add_knowledge((0,0), 1)`, then `add_knowledge((1,0), 1)`,
then `add_knowledge((1,2), 1)`. -/
def twoByThreeState : AIState :=
  resState ((resState ((resState ((AIState.init 2 3).add_knowledge
    (0,0) 1)).add_knowledge (1,0) 1)).add_knowledge (1,2) 1)

/-- Agent state after the reveal sequence on a 1 by 4 board:
`add_knowledge((0,0), 1)`, then `add_knowledge((0,2), 2)` (which infers the
mine at (0,3)), then `add_knowledge((0,3), 0)` (probing the known mine). -/
def oneByFourState : AIState :=
  resState ((resState ((resState ((AIState.init 1 4).add_knowledge
    (0,0) 1)).add_knowledge (0,2) 2)).add_knowledge (0,3) 0)

/-- C1: refuted on the code.  After `add_knowledge((0,0), 1)` on a fresh 1 by
2 agent the call returns normally, yet the knowledge list holds the sentence
`{(0,1)} = 1` whose `known_mines()` is the non-empty set `{(0,1)}` not
contained in the global mines set (which is empty): the state is not at a
fixed point of the inference rules, because `add_knowledge` never extracts
`known_mines`/`known_safes` and runs no closure loop. -/
theorem C1_not_fixed_point :
    (AIState.init 1 2).add_knowledge (0,0) 1 = Except.ok oneByTwoState ∧
    ∃ s ∈ oneByTwoState.knowledge,
      s.known_mines ≠ ∅ ∧ ¬ s.known_mines ⊆ oneByTwoState.mines := by
  decide

/-- C2: refuted on the code.  On the 1 by 2 board with the mine at (0,1),
revealing the non-mine cell (0,0) with count 1 leaves the global mines set
empty: the mine cell is never placed into `mines`. -/
theorem C2_mine_not_derived :
    (AIState.init 1 2).add_knowledge (0,0) 1 = Except.ok oneByTwoState ∧
    oneByTwoState.knowledge = [⟨{(0,1)}, 1⟩] ∧
    (0,1) ∉ oneByTwoState.mines ∧ oneByTwoState.mines = ∅ := by
  decide

/-- C3: refuted on the code.  After the three reveals of `twoByThreeState`,
the knowledge base contains the sentences `{(0,1),(1,1)} = 1` and
`{(0,1),(0,2),(1,1)} = 1` (the latter added by the most recent call), yet the
difference cell (0,2) is not in the global safes set: the superset inference
branch tests `new_sentence.count == 0` instead of the count difference, so the
subset-difference rule with zero difference is not applied in this
direction. -/
theorem C3_superset_direction_fails :
    (⟨{(0,1),(1,1)}, 1⟩ : Sentence) ∈ twoByThreeState.knowledge ∧
    (⟨{(0,1),(0,2),(1,1)}, 1⟩ : Sentence) ∈ twoByThreeState.knowledge ∧
    (0,2) ∉ twoByThreeState.safes := by
  decide

/-- C4: refuted on the code.  On the reachable state `oneByTwoState` (where
`moves_made = {(0,0)}`), calling `mark_safe((0,0))` removes the cell from
`moves_made`: the method body begins with
`if cell in self.moves_made: self.moves_made.remove(cell)`. -/
theorem C4_mark_safe_removes_move :
    oneByTwoState.moves_made = {(0,0)} ∧
    (oneByTwoState.mark_safe (0,0)).moves_made = ∅ := by
  decide

/-- C5 counterexample: the pairwise-disjointness claim fails as stated.  From
a state whose collections are pairwise disjoint (safes = {(0,0)}, everything
else empty), the public operation `mark_mine((0,0))` leaves (0,0) in both the
safes set and the mines set. -/
theorem C5_counterexample :
    ((⟨1, 2, ∅, ∅, {(0,0)}, ∅, []⟩ : AIState).mark_mine (0,0)).safes ∩
      ((⟨1, 2, ∅, ∅, {(0,0)}, ∅, []⟩ : AIState).mark_mine (0,0)).mines
      = {(0,0)} := by
  decide

/-- C5 (amended): from a state satisfying the disjointness invariant, each
public operation preserves it provided its argument is not already classified
on the opposite side: `mark_mine` needs the cell outside `safes`, `mark_safe`
and `add_knowledge` need it outside `mines`. -/
theorem C5_disjointness_preserved (st : AIState) (c : Cell) :
    st.Inv →
      (c ∉ st.safes → (st.mark_mine c).Inv) ∧
      (c ∉ st.mines → (st.mark_safe c).Inv) ∧
      (∀ (n : ℤ) (st2 : AIState), c ∉ st.mines →
        st.add_knowledge c n = Except.ok st2 → st2.Inv) := by
  intro h
  exact ⟨fun hc => AIState.inv_mark_mine h hc,
    fun hc => AIState.inv_mark_safe h hc,
    fun n st2 hc hok => AIState.inv_add_knowledge_ok h hc hok⟩

theorem C5_witness :
    ((AIState.init 1 2).mark_mine (0,0)).Inv ∧
    ((AIState.init 1 2).mark_safe (0,1)).Inv :=
  ⟨(C5_disjointness_preserved (AIState.init 1 2) (0,0) (by decide)).1
      (by decide),
   (C5_disjointness_preserved (AIState.init 1 2) (0,1) (by decide)).2.1
      (by decide)⟩

/-- C6 counterexample: the no-cell-in-both-sets part fails as stated.  The
three in-bounds `add_knowledge` calls of `oneByFourState` put (0,3) into the
mines set (second call) and then into the safes set (third call, which probes
the known mine), so a cell belongs to both sets. -/
theorem C6_counterexample :
    (AIState.init 1 4).inBounds (0,0) ∧ (AIState.init 1 4).inBounds (0,2) ∧
    (AIState.init 1 4).inBounds (0,3) ∧
    (0,3) ∈ oneByFourState.safes ∧ (0,3) ∈ oneByFourState.mines := by
  decide

/-- C6 (amended): every `add_knowledge` call that returns normally grows both
classification sets, so the sum of their sizes is non-decreasing over any
sequence of calls; and along any sequence of in-bounds calls from a fresh
agent in which no call probes a cell already known to be a mine, the safes
and mines sets stay disjoint. -/
theorem C6_monotone_and_disjoint :
    (∀ (st st2 : AIState) (c : Cell) (n : ℤ),
        st.add_knowledge c n = Except.ok st2 →
        st.safes.card + st.mines.card ≤ st2.safes.card + st2.mines.card ∧
        st.safes ⊆ st2.safes ∧ st.mines ⊆ st2.mines) ∧
    (∀ st : AIState, AKReach st → st.safes ∩ st.mines = ∅) := by
  constructor
  · intro st st2 c n hok
    obtain ⟨h1, h2⟩ := AIState.grow_add_knowledge_ok hok
    exact ⟨Nat.add_le_add (Finset.card_le_card h1) (Finset.card_le_card h2),
      h1, h2⟩
  · intro st h
    exact (akReach_inv h).1

theorem C6_witness :
    ((AIState.init 1 2).safes.card + (AIState.init 1 2).mines.card ≤
      oneByTwoState.safes.card + oneByTwoState.mines.card) ∧
    (AIState.init 1 2).safes ∩ (AIState.init 1 2).mines = ∅ :=
  ⟨(C6_monotone_and_disjoint.1 _ _ (0,0) 1 (by decide)).1,
   C6_monotone_and_disjoint.2 _ (AKReach.start 1 2)⟩

/-- C7 counterexample: the out-of-bounds cell (5,5) passed to `mark_safe` of a
2 by 2 agent is not rejected and does not leave the state unchanged: it is
added to the safes set. -/
theorem C7_counterexample :
    ¬ (AIState.init 2 2).inBounds (5,5) ∧
    ((AIState.init 2 2).mark_safe (5,5)).safes = {(5,5)} ∧
    (AIState.init 2 2).mark_safe (5,5) ≠ AIState.init 2 2 := by
  decide

/-- C7 (amended): there is no bounds precondition check at entry.  For an
out-of-bounds cell, `mark_safe` and `mark_mine` mutate the state normally,
and `add_knowledge` raises (the `KeyError` escaping from `get_neighbors`)
only after the cell has already been added to the safes set, so the state is
not left unchanged. -/
theorem C7_no_entry_check (st : AIState) (c : Cell) (n : ℤ)
    (h : ¬ st.inBounds c) :
    (st.mark_safe c).safes = insert c st.safes ∧
    (st.mark_mine c).mines = insert c st.mines ∧
    ∃ st2, st.add_knowledge c n = Except.error st2 ∧ c ∈ st2.safes :=
  ⟨rfl, rfl, AIState.add_knowledge_oob h n⟩

theorem C7_witness :
    ((AIState.init 2 2).mark_safe (5,5)).safes =
      insert (5,5) (AIState.init 2 2).safes ∧
    ((AIState.init 2 2).mark_mine (5,5)).mines =
      insert (5,5) (AIState.init 2 2).mines ∧
    ∃ st2, (AIState.init 2 2).add_knowledge (5,5) 0 = Except.error st2 ∧
      (5,5) ∈ st2.safes :=
  C7_no_entry_check (AIState.init 2 2) (5,5) 0 (by decide)

/-- C8 counterexample: on a state where the safes and mines sets are not
disjoint, `make_safe_move` returns a cell that is in `mines`, so the claim
quantified over every agent state fails. -/
theorem C8_counterexample :
    (⟨1, 1, ∅, {(0,0)}, {(0,0)}, ∅, []⟩ : AIState).make_safe_move =
      some (0,0) ∧
    (0,0) ∈ (⟨1, 1, ∅, {(0,0)}, {(0,0)}, ∅, []⟩ : AIState).mines := by
  decide

/-- C8 (amended): `make_safe_move` returns `None` exactly when no cell of
`safes` is outside `moves_made`; a returned cell is always in `safes` and
outside `moves_made`, and is outside `mines` provided `safes` and `mines` are
disjoint.  In the embedding the function only reads the state, so it mutates
nothing by construction. -/
theorem C8_make_safe_move (st : AIState) :
    (st.make_safe_move = none ↔ st.safes \ st.moves_made = ∅) ∧
    (∀ c : Cell, st.make_safe_move = some c →
      c ∈ st.safes ∧ c ∉ st.moves_made ∧
        (st.safes ∩ st.mines = ∅ → c ∉ st.mines)) := by
  refine ⟨AIState.make_safe_move_none_iff st, ?_⟩
  intro c h
  obtain ⟨h1, h2⟩ := Finset.mem_sdiff.mp (AIState.make_safe_move_some_mem h)
  exact ⟨h1, h2, fun hd => (inter_eq_empty_iff _ _).mp hd c h1⟩

theorem C8_witness :
    (0,0) ∈ (⟨1, 2, ∅, ∅, {(0,0)}, ∅, []⟩ : AIState).safes ∧
    (0,0) ∉ (⟨1, 2, ∅, ∅, {(0,0)}, ∅, []⟩ : AIState).moves_made ∧
    (0,0) ∉ (⟨1, 2, ∅, ∅, {(0,0)}, ∅, []⟩ : AIState).mines := by
  obtain ⟨h1, h2, h3⟩ :=
    (C8_make_safe_move (⟨1, 2, ∅, ∅, {(0,0)}, ∅, []⟩ : AIState)).2 (0,0)
      (by decide)
  exact ⟨h1, h2, h3 (by decide)⟩

/-- C9: confirmed.  The `accounted_mines` set is empty in every reachable
state (no operation populates it); `mark_safe` changes neither `mines` nor
`accounted_mines`; and with `accounted_mines` empty the count adjustment of
`add_knowledge` subtracts exactly one per neighbor of the cell already in the
global mines set, and nothing else. -/
theorem C9_count_adjustment :
    (∀ st : AIState, Reachable st → st.accounted_mines = ∅) ∧
    (∀ (st : AIState) (c : Cell), (st.mark_safe c).mines = st.mines ∧
      (st.mark_safe c).accounted_mines = st.accounted_mines) ∧
    (∀ (st : AIState) (c : Cell) (n : ℤ), st.accounted_mines = ∅ →
      st.adjustedCount c n =
        n - ((st.mines ∩ st.get_neighbors c).card : ℤ)) :=
  ⟨fun _ h => reachable_accounted_empty h,
   fun _ _ => ⟨rfl, rfl⟩,
   fun _ c n h => AIState.adjustedCount_of_accounted_empty h c n⟩

theorem C9_witness :
    (AIState.init 2 2).accounted_mines = ∅ ∧
    (AIState.init 2 2).adjustedCount (0,0) 3 =
      3 - (((AIState.init 2 2).mines ∩
        (AIState.init 2 2).get_neighbors (0,0)).card : ℤ) :=
  ⟨C9_count_adjustment.1 _ (Reachable.start 2 2),
   C9_count_adjustment.2.2 _ (0,0) 3 rfl⟩

/-- C10: confirmed.  When `play` takes a safe move it returns that cell, adds
it to `moves_made` and removes it from `safes`, so the probed cell is no
longer recorded as proven safe. -/
theorem C10_play_removes_from_safes (st : AIState) (c : Cell)
    (h : st.make_safe_move = some c) :
    (st.play).1 = some c ∧
    (st.play).2.moves_made = insert c st.moves_made ∧
    (st.play).2.safes = st.safes.erase c ∧
    c ∉ (st.play).2.safes := by
  have hp : st.play =
      (some c, { st with moves_made := insert c st.moves_made
                         safes := st.safes.erase c }) := by
    unfold AIState.play
    rw [h]
  rw [hp]
  exact ⟨rfl, rfl, rfl, Finset.not_mem_erase c st.safes⟩

theorem C10_witness :
    ((⟨2, 2, ∅, ∅, {(0,0)}, ∅, []⟩ : AIState).play).1 = some (0,0) ∧
    ((⟨2, 2, ∅, ∅, {(0,0)}, ∅, []⟩ : AIState).play).2.moves_made =
      insert (0,0) (⟨2, 2, ∅, ∅, {(0,0)}, ∅, []⟩ : AIState).moves_made ∧
    ((⟨2, 2, ∅, ∅, {(0,0)}, ∅, []⟩ : AIState).play).2.safes =
      (⟨2, 2, ∅, ∅, {(0,0)}, ∅, []⟩ : AIState).safes.erase (0,0) ∧
    (0,0) ∉ ((⟨2, 2, ∅, ∅, {(0,0)}, ∅, []⟩ : AIState).play).2.safes :=
  C10_play_removes_from_safes _ (0,0) (by decide)
